import Mathlib

/-!
# Verification of the microkv encrypted key-value store

Shallow embedding of the microkv Rust sources (`src/kv.rs`, `src/namespace.rs`,
`src/errors.rs`) and proofs about the claims of the specification.

Modelling conventions:
* Rust `String` values (keys, namespaces, paths) are modelled as `List Char`;
  error messages stay Lean `String`s.
* Byte buffers (`Vec<u8>`, `SecVec<u8>`) are modelled as `List Nat`.
* The `bincode` serializer is modelled by an injective length-prefixed
  encoding with the same field order as the Rust structs.
* `sodiumoxide`'s `secretbox` AEAD is modelled ideally: a ciphertext carries
  an unforgeable authentication tag binding the key, the nonce and the
  payload; `secretbox_open` succeeds exactly on well-formed ciphertexts whose
  tag matches.
* Locks always succeed (single-threaded embedding); the poisoned-lock branch
  of every operation is therefore never taken and is omitted from the models.
* `indexmap::IndexMap` is modelled as a `List (List Char × List Nat)` in
  insertion order; `IndexMap::remove` is `swap_remove` (the library swaps the
  removed slot with the last entry before popping), which the model mirrors.
-/

set_option autoImplicit false

abbrev Bytes := List Nat

/-- Error kinds, from `src/errors.rs` (`ErrorType`): `KVError`, `CryptoError`,
`FileError`, `PoisonError`.  The enum has no serialization variant. -/
inductive ErrorType where
  | KVError
  | CryptoError
  | FileError
  | PoisonError
deriving DecidableEq, Repr

/-- `KVError` from `src/errors.rs`: an `ErrorType` plus an optional message. -/
structure KVError where
  error : ErrorType
  msg : Option String
deriving DecidableEq, Repr

/-! ## Length-prefixed encoding (model of `bincode`) -/

/-- Encode a byte buffer with a length prefix. -/
def encBytes (b : Bytes) : Bytes := b.length :: b

/-- Decode a length-prefixed byte buffer, returning it and the remainder. -/
def decBytes (s : Bytes) : Option (Bytes × Bytes) :=
  match s with
  | [] => none
  | n :: r => if n ≤ r.length then some (r.take n, r.drop n) else none

/-- Encode a character list (a Rust `String`) via the code points. -/
def encStr (s : List Char) : Bytes := encBytes (s.map Char.toNat)

/-- Decode a character list. -/
def decStr (b : Bytes) : Option (List Char × Bytes) :=
  match decBytes b with
  | some (bs, r) => some (bs.map Char.ofNat, r)
  | none => none

theorem decBytes_enc (b r : Bytes) : decBytes (encBytes b ++ r) = some (b, r) := by
  simp [encBytes, decBytes, List.take_left, List.drop_left]

theorem decBytes_sound {s b r : Bytes} (h : decBytes s = some (b, r)) :
    s = encBytes b ++ r := by
  match s with
  | [] => simp [decBytes] at h
  | n :: t =>
    simp only [decBytes] at h
    split at h
    · next hle =>
      have hb : b = t.take n := by simpa using congrArg (·.1) (Option.some.inj h).symm
      have hr : r = t.drop n := by simpa using congrArg (·.2) (Option.some.inj h).symm
      subst hb; subst hr
      have hlen : (t.take n).length = n := List.length_take_of_le hle
      simp [encBytes, hlen]
    · exact absurd h (by simp)

theorem decStr_enc (s : List Char) (r : Bytes) : decStr (encStr s ++ r) = some (s, r) := by
  simp [decStr, encStr, decBytes_enc, List.map_map, Function.comp_def, Char.ofNat_toNat]

/-! ## Ideal AEAD model of `sodiumoxide::crypto::secretbox` -/

/-- `Key::from_slice`: succeeds exactly on 32-byte buffers. -/
def key_from_slice (p : Bytes) : Option Bytes :=
  if p.length = 32 then some p else none

/-- Ideal model of `secretbox::seal`: the ciphertext bytes consist of the
payload together with an unforgeable authentication tag binding the key, the
nonce and the payload. -/
def secretbox_seal (p nonce k : Bytes) : Bytes :=
  1 :: (encBytes p ++ (encBytes k ++ (encBytes nonce ++ encBytes p)))

/-- Ideal model of `secretbox::open`: parses the ciphertext and verifies the
tag; fails on anything that is not exactly a sealed box under the given key
and nonce. -/
def secretbox_open (c nonce k : Bytes) : Option Bytes :=
  match c with
  | 1 :: r =>
    match decBytes r with
    | some (p, r1) =>
      match decBytes r1 with
      | some (tk, r2) =>
        match decBytes r2 with
        | some (tn, r3) =>
          match decBytes r3 with
          | some (tm, r4) =>
            if tk = k ∧ tn = nonce ∧ tm = p ∧ r4 = [] then some p else none
          | none => none
        | none => none
      | none => none
    | none => none
  | _ => none

theorem secretbox_open_seal (p nonce k nonce2 k2 : Bytes) :
    secretbox_open (secretbox_seal p nonce k) nonce2 k2 =
      if k = k2 ∧ nonce = nonce2 then some p else none := by
  simp only [secretbox_seal, secretbox_open, decBytes_enc]
  have h4 : decBytes (encBytes p) = some (p, []) := by
    simpa using decBytes_enc p []
  simp [h4]

theorem secretbox_open_sound {c nonce k p : Bytes}
    (h : secretbox_open c nonce k = some p) : c = secretbox_seal p nonce k := by
  unfold secretbox_open at h
  split at h
  · next r =>
    cases h1 : decBytes r with
    | none => simp [h1] at h
    | some pr1 =>
      obtain ⟨p0, r1⟩ := pr1
      simp only [h1] at h
      cases h2 : decBytes r1 with
      | none => simp [h2] at h
      | some pr2 =>
        obtain ⟨tk, r2⟩ := pr2
        simp only [h2] at h
        cases h3 : decBytes r2 with
        | none => simp [h3] at h
        | some pr3 =>
          obtain ⟨tn, r3⟩ := pr3
          simp only [h3] at h
          cases h4 : decBytes r3 with
          | none => simp [h4] at h
          | some pr4 =>
            obtain ⟨tm, r4⟩ := pr4
            simp only [h4] at h
            split at h
            · next hcond =>
              obtain ⟨htk, htn, htm, hr4⟩ := hcond
              have hp : p0 = p := by simpa using h
              subst hp; subst htk; subst htn; subst htm; subst hr4
              have e1 := decBytes_sound h1
              have e2 := decBytes_sound h2
              have e3 := decBytes_sound h3
              have e4 := decBytes_sound h4
              subst e1; subst e2; subst e3
              simp only [secretbox_seal]
              rw [e4]
              simp
            · exact absurd h (by simp)
  · exact absurd h (by simp)

/-! ## Model of `indexmap::IndexMap<String, SecVec<u8>>` -/

abbrev KVmap := List (List Char × Bytes)

/-- `IndexMap::get`: first-match association lookup (keys are unique in an
`IndexMap`, so the first match is the match). -/
def lookupKV (k : List Char) : KVmap → Option Bytes
  | [] => none
  | e :: r => if e.1 = k then some e.2 else lookupKV k r

/-- Index of the entry holding key `k`, if any. -/
def findIdxKey (k : List Char) : KVmap → Option Nat
  | [] => none
  | e :: r => if e.1 = k then some 0 else (findIdxKey k r).map (· + 1)

/-- `IndexMap::contains_key`. -/
def containsKey (k : List Char) (m : KVmap) : Bool :=
  (findIdxKey k m).isSome

/-- Model of `IndexMap::remove`, which is `swap_remove`: the removed slot is
filled with the last entry of the map, which is then popped; the relative
order of the remaining entries is therefore perturbed. -/
def swapRemoveKey (k : List Char) (m : KVmap) : KVmap :=
  match findIdxKey k m, m.getLast? with
  | some i, some last => (m.set i last).dropLast
  | _, _ => m

/-- Model of `IndexMap::insert`: overwrite in place when the key is present,
append at the end otherwise. -/
def imInsert (k : List Char) (v : Bytes) (m : KVmap) : KVmap :=
  match findIdxKey k m with
  | some i => m.set i (k, v)
  | none => m ++ [(k, v)]

/-! ### Lemmas about the map model -/

theorem lookupKV_append_of_none {k : List Char} {t : KVmap} (u : KVmap)
    (h : lookupKV k t = none) : lookupKV k (t ++ u) = lookupKV k u := by
  induction t with
  | nil => simp
  | cons e r ih =>
    simp only [lookupKV] at h ⊢
    split at h
    · exact absurd h (by simp)
    · next he => simp only [List.cons_append, lookupKV, if_neg he]; exact ih h

theorem lookupKV_append_of_some {k : List Char} {t : KVmap} {v : Bytes} (u : KVmap)
    (h : lookupKV k t = some v) : lookupKV k (t ++ u) = some v := by
  induction t with
  | nil => simp [lookupKV] at h
  | cons e r ih =>
    simp only [lookupKV] at h ⊢
    split at h
    · next he => simp only [List.cons_append, lookupKV, if_pos he]; exact h
    · next he => simp only [List.cons_append, lookupKV, if_neg he]; exact ih h

theorem lookupKV_eq_none_iff {k : List Char} {m : KVmap} :
    lookupKV k m = none ↔ k ∉ m.map Prod.fst := by
  induction m with
  | nil => simp [lookupKV]
  | cons e r ih =>
    simp only [lookupKV, List.map_cons, List.mem_cons]
    split
    · next he => simp [he]
    · next he =>
      rw [ih]
      constructor
      · intro h hm
        rcases hm with h1 | h2
        · exact he h1.symm
        · exact h h2
      · intro h h2
        exact h (Or.inr h2)

theorem mem_of_lookupKV_eq_some {k : List Char} {m : KVmap} {v : Bytes}
    (h : lookupKV k m = some v) : (k, v) ∈ m := by
  induction m with
  | nil => simp [lookupKV] at h
  | cons e r ih =>
    simp only [lookupKV] at h
    split at h
    · next he =>
      have hv : e.2 = v := by simpa using h
      have : e = (k, v) := Prod.ext he hv
      simp [this]
    · exact List.mem_cons_of_mem _ (ih h)

theorem lookupKV_eq_some_of_mem {k : List Char} {m : KVmap} {v : Bytes}
    (hN : (m.map Prod.fst).Nodup) (hm : (k, v) ∈ m) : lookupKV k m = some v := by
  induction m with
  | nil => simp at hm
  | cons e r ih =>
    rcases List.mem_cons.mp hm with rfl | h2
    · simp [lookupKV]
    · have hN2 : (r.map Prod.fst).Nodup := (List.nodup_cons.mp (by simpa using hN)).2
      have hk : k ∈ r.map Prod.fst := List.mem_map.mpr ⟨(k, v), h2, rfl⟩
      have he : e.1 ≠ k := by
        intro hek
        exact (List.nodup_cons.mp (by simpa using hN)).1 (hek ▸ hk)
      simp only [lookupKV, if_neg he]
      exact ih hN2 h2

theorem lookupKV_perm {m1 m2 : KVmap} (h : m1.Perm m2)
    (hN : (m1.map Prod.fst).Nodup) (k : List Char) :
    lookupKV k m1 = lookupKV k m2 := by
  have hN2 : (m2.map Prod.fst).Nodup := ((h.map Prod.fst).nodup_iff).mp hN
  cases h1 : lookupKV k m1 with
  | none =>
    have := lookupKV_eq_none_iff.mp h1
    rw [eq_comm, lookupKV_eq_none_iff]
    intro hk
    exact this (((h.map Prod.fst).mem_iff).mpr hk)
  | some v =>
    exact (lookupKV_eq_some_of_mem hN2 (h.mem_iff.mp (mem_of_lookupKV_eq_some h1))).symm

theorem findIdxKey_eq_none_iff {k : List Char} {m : KVmap} :
    findIdxKey k m = none ↔ ∀ e ∈ m, e.1 ≠ k := by
  induction m with
  | nil => simp [findIdxKey]
  | cons e r ih =>
    simp only [findIdxKey]
    split
    · next he => simp [he]
    · next he =>
      cases hr : findIdxKey k r with
      | none =>
        refine iff_of_true (by simp) ?_
        intro f hf
        rcases List.mem_cons.mp hf with rfl | hf2
        · exact he
        · exact ih.mp hr f hf2
      | some j =>
        refine iff_of_false (by simp) ?_
        intro h
        have hnone : findIdxKey k r = none :=
          ih.mpr (fun f hf => h f (List.mem_cons_of_mem _ hf))
        rw [hnone] at hr
        exact absurd hr (by simp)

theorem findIdxKey_append_cons {k : List Char} (t : KVmap) (x : List Char × Bytes)
    (s : KVmap) (ht : ∀ e ∈ t, e.1 ≠ k) (hx : x.1 = k) :
    findIdxKey k (t ++ x :: s) = some t.length := by
  induction t with
  | nil => simp [findIdxKey, hx]
  | cons e r ih =>
    have he : e.1 ≠ k := ht e (by simp)
    have ih2 : findIdxKey k (r ++ x :: s) = some r.length :=
      ih (fun f hf => ht f (List.mem_cons_of_mem _ hf))
    simp [List.cons_append, findIdxKey, if_neg he, ih2]

theorem findIdxKey_some_decomp {k : List Char} {m : KVmap} {i : Nat}
    (h : findIdxKey k m = some i) :
    ∃ t x s, m = t ++ x :: s ∧ t.length = i ∧ x.1 = k ∧ ∀ e ∈ t, e.1 ≠ k := by
  induction m generalizing i with
  | nil => simp [findIdxKey] at h
  | cons e r ih =>
    by_cases he : e.1 = k
    · simp only [findIdxKey, if_pos he] at h
      have hi : i = 0 := by simpa using h.symm
      exact ⟨[], e, r, by simp, by simp [hi], he, by simp⟩
    · simp only [findIdxKey, if_neg he] at h
      cases hr : findIdxKey k r with
      | none => rw [hr] at h; exact absurd h (by simp)
      | some j =>
        rw [hr] at h
        have hij : j + 1 = i := by simpa using h
        obtain ⟨t, x, s, hm, hlen, hx, ht⟩ := ih hr
        refine ⟨e :: t, x, s, by simp [hm], by simp [hlen, hij], hx, ?_⟩
        intro f hf
        rcases List.mem_cons.mp hf with rfl | hf2
        · exact he
        · exact ht f hf2

theorem findIdxKey_eq_none_of_not_mem {k : List Char} {m : KVmap}
    (h : k ∉ m.map Prod.fst) : findIdxKey k m = none :=
  findIdxKey_eq_none_iff.mpr (fun e he hek => h (List.mem_map.mpr ⟨e, he, hek⟩))

theorem lookupKV_eq_none_of_findIdxKey_none {k : List Char} {m : KVmap}
    (h : findIdxKey k m = none) : lookupKV k m = none := by
  rw [lookupKV_eq_none_iff]
  intro hk
  obtain ⟨e, he, hek⟩ := List.mem_map.mp hk
  exact findIdxKey_eq_none_iff.mp h e he hek

theorem swapRemoveKey_of_none {k : List Char} {m : KVmap}
    (h : findIdxKey k m = none) : swapRemoveKey k m = m := by
  simp [swapRemoveKey, h]

theorem swapRemoveKey_perm_aux (k : List Char) (t s : KVmap) (x : List Char × Bytes)
    (ht : ∀ e ∈ t, e.1 ≠ k) (hx : x.1 = k) :
    (swapRemoveKey k (t ++ x :: s)).Perm (t ++ s) := by
  have hidx := findIdxKey_append_cons t x s ht hx
  rcases List.eq_nil_or_concat s with rfl | ⟨s0, last, hs⟩
  · have hlast : (t ++ [x]).getLast? = some x := List.getLast?_concat t
    have hset : (t ++ [x]).set t.length x = t ++ [x] := by
      rw [List.set_append_right _ _ (le_refl t.length)]
      simp
    simp only [swapRemoveKey, hidx, hlast, hset, List.dropLast_concat]
    simp
  · rw [List.concat_eq_append] at hs
    subst hs
    have hre : t ++ x :: (s0 ++ [last]) = (t ++ x :: s0) ++ [last] := by simp
    have hlast : (t ++ x :: (s0 ++ [last])).getLast? = some last := by
      rw [hre]; exact List.getLast?_concat _
    have hset : (t ++ x :: (s0 ++ [last])).set t.length last
        = t ++ last :: (s0 ++ [last]) := by
      rw [List.set_append_right _ _ (le_refl t.length)]
      simp
    have hdrop : (t ++ last :: (s0 ++ [last])).dropLast = t ++ last :: s0 := by
      have h2 : t ++ last :: (s0 ++ [last]) = (t ++ last :: s0) ++ [last] := by simp
      rw [h2, List.dropLast_concat]
    simp only [swapRemoveKey, hidx, hlast, hset, hdrop]
    exact List.Perm.append_left t ((List.perm_append_singleton last s0).symm)

theorem not_mem_keys_swapRemoveKey {k : List Char} {m : KVmap}
    (hN : (m.map Prod.fst).Nodup) : k ∉ (swapRemoveKey k m).map Prod.fst := by
  cases hidx : findIdxKey k m with
  | none =>
    rw [swapRemoveKey_of_none hidx]
    intro hk
    obtain ⟨e, he, hek⟩ := List.mem_map.mp hk
    exact findIdxKey_eq_none_iff.mp hidx e he hek
  | some i =>
    obtain ⟨t, x, s, rfl, hlen, hx, ht⟩ := findIdxKey_some_decomp hidx
    have hperm := (swapRemoveKey_perm_aux k t s x ht hx).map Prod.fst
    intro hk
    have hk2 : k ∈ (t ++ s).map Prod.fst := hperm.mem_iff.mp hk
    have hN2 : (t.map Prod.fst ++ x.1 :: s.map Prod.fst).Nodup := by simpa using hN
    have hk3 : k ∈ t.map Prod.fst ++ s.map Prod.fst := by
      rw [← List.map_append]; exact hk2
    rcases List.mem_append.mp hk3 with h1 | h2
    · obtain ⟨e, he, hek⟩ := List.mem_map.mp h1
      exact ht e he hek
    · have hcons : (x.1 :: s.map Prod.fst).Nodup := (List.nodup_append.mp hN2).2.1
      have hx2 : x.1 ∉ s.map Prod.fst := (List.nodup_cons.mp hcons).1
      exact hx2 (hx ▸ h2)

theorem lookupKV_swapRemoveKey_ne {k z : List Char} {m : KVmap}
    (hN : (m.map Prod.fst).Nodup) (hz : z ≠ k) :
    lookupKV z (swapRemoveKey k m) = lookupKV z m := by
  cases hidx : findIdxKey k m with
  | none => rw [swapRemoveKey_of_none hidx]
  | some i =>
    obtain ⟨t, x, s, rfl, hlen, hx, ht⟩ := findIdxKey_some_decomp hidx
    have hperm := swapRemoveKey_perm_aux k t s x ht hx
    have hN2 : (t.map Prod.fst ++ x.1 :: s.map Prod.fst).Nodup := by simpa using hN
    have hNts : ((t ++ s).map Prod.fst).Nodup := by
      have hsub : List.Sublist (t.map Prod.fst ++ s.map Prod.fst)
          (t.map Prod.fst ++ x.1 :: s.map Prod.fst) :=
        List.Sublist.append_left (List.sublist_cons_self x.1 (s.map Prod.fst)) _
      have hNs := hN2.sublist hsub
      simpa using hNs
    have hNswap : ((swapRemoveKey k (t ++ x :: s)).map Prod.fst).Nodup :=
      ((hperm.map Prod.fst).nodup_iff).mpr hNts
    rw [lookupKV_perm hperm hNswap z]
    cases hlt : lookupKV z t with
    | some v => rw [lookupKV_append_of_some _ hlt, lookupKV_append_of_some _ hlt]
    | none =>
      rw [lookupKV_append_of_none _ hlt, lookupKV_append_of_none _ hlt]
      have hxz : x.1 ≠ z := by rw [hx]; exact fun hh => hz hh.symm
      simp [lookupKV, hxz]

theorem lookupKV_imInsert_self (k : List Char) (v : Bytes) (m : KVmap) :
    lookupKV k (imInsert k v m) = some v := by
  cases hidx : findIdxKey k m with
  | none =>
    simp only [imInsert, hidx]
    rw [lookupKV_append_of_none _ (lookupKV_eq_none_of_findIdxKey_none hidx)]
    simp [lookupKV]
  | some i =>
    obtain ⟨t, x, s, rfl, hlen, hx, ht⟩ := findIdxKey_some_decomp hidx
    subst hlen
    simp only [imInsert, hidx]
    have hset : (t ++ x :: s).set t.length (k, v) = t ++ (k, v) :: s := by
      rw [List.set_append_right _ _ (le_refl t.length)]
      simp
    have hlt : lookupKV k t = none := by
      rw [lookupKV_eq_none_iff]
      intro hk
      obtain ⟨e, he, hek⟩ := List.mem_map.mp hk
      exact ht e he hek
    rw [hset, lookupKV_append_of_none _ hlt]
    simp [lookupKV]

theorem lookupKV_imInsert_ne {k z : List Char} (hz : z ≠ k) (v : Bytes) (m : KVmap) :
    lookupKV z (imInsert k v m) = lookupKV z m := by
  cases hidx : findIdxKey k m with
  | none =>
    simp only [imInsert, hidx]
    cases hlt : lookupKV z m with
    | some w => rw [lookupKV_append_of_some _ hlt]
    | none =>
      rw [lookupKV_append_of_none _ hlt]
      have hkz : k ≠ z := fun hh => hz hh.symm
      simp [lookupKV, hkz]
  | some i =>
    obtain ⟨t, x, s, rfl, hlen, hx, ht⟩ := findIdxKey_some_decomp hidx
    subst hlen
    simp only [imInsert, hidx]
    have hset : (t ++ x :: s).set t.length (k, v) = t ++ (k, v) :: s := by
      rw [List.set_append_right _ _ (le_refl t.length)]
      simp
    rw [hset]
    cases hlt : lookupKV z t with
    | some w => rw [lookupKV_append_of_some _ hlt, lookupKV_append_of_some _ hlt]
    | none =>
      rw [lookupKV_append_of_none _ hlt, lookupKV_append_of_none _ hlt]
      have hkz : k ≠ z := fun hh => hz hh.symm
      have hxz : x.1 ≠ z := by rw [hx]; exact fun hh => hz hh.symm
      simp [lookupKV, hkz, hxz]

theorem keys_imInsert_append {k : List Char} {v : Bytes} {m : KVmap}
    (h : findIdxKey k m = none) :
    (imInsert k v m).map Prod.fst = m.map Prod.fst ++ [k] := by
  simp [imInsert, h]

theorem map_fst_swapRemoveKey {k : List Char} {m : KVmap} {i : Nat}
    {last : List Char × Bytes} (hi : findIdxKey k m = some i)
    (hl : m.getLast? = some last) :
    (swapRemoveKey k m).map Prod.fst = ((m.map Prod.fst).set i last.1).dropLast := by
  simp [swapRemoveKey, hi, hl, List.map_dropLast, List.map_set]

/-! ## Serializable values -/

/-- A caller-supplied serializable value type: `ser` models
`bincode::serialize` at that type, `deser` models `bincode::deserialize`. -/
structure Codec (V : Type) where
  ser : V → Bytes
  deser : Bytes → Option V

/-! ## The `MicroKV` store handle (`src/kv.rs`) -/

/-- State of `MicroKV`: `path`, `storage` (the `IndexMap` behind its
`RwLock`), the public `nonce`, and the optional hashed password `pwd`
(marked `#[serde(skip_serializing, skip_deserializing)]` in the source). -/
structure MicroKV where
  path : List Char
  storage : KVmap
  nonce : Bytes
  pwd : Option Bytes
deriving DecidableEq, Repr

/-- `get_db_path`: `$HOME/.microkv/<name>.kv`.  `PathBuf::set_extension` is
modelled as appending `.kv`, which is exact for database names that contain
no dot. -/
def MicroKV.get_db_path (homeDir name : List Char) : List Char :=
  homeDir ++ "/.microkv/".toList ++ name ++ ".kv".toList

/-- `MicroKV::new`: empty storage, no password, freshly generated nonce (the
randomness is passed as a parameter), path from `get_db_path` (the home
directory read from `$HOME` is likewise a parameter). -/
def MicroKV.new (homeDir dbname : List Char) (nonce : Bytes) : MicroKV :=
  { path := MicroKV.get_db_path homeDir dbname
    storage := []
    nonce := nonce
    pwd := none }

/-- `MicroKV::with_pwd_hash`: attach a pre-hashed 32-byte secret (the Rust
signature takes `[u8; 32]`; the length is carried as a hypothesis where it
matters). -/
def MicroKV.with_pwd_hash (kv : MicroKV) (p : Bytes) : MicroKV :=
  { kv with pwd := some p }

/-- `MicroKV::get` (src/kv.rs lines 157–217): look the key up in a clone of
the storage taken under the read lock; with a password set, derive the key
(`CryptoError` on failure) and decrypt (`CryptoError` on failure); finally
deserialize (`KVError` on failure); `KVError` "key not found in storage"
when the key is absent. -/
def MicroKV.get {V : Type} (c : Codec V) (kv : MicroKV) (key : List Char) :
    Except KVError V :=
  match lookupKV key kv.storage with
  | some val =>
    let deser_val : Except KVError Bytes :=
      match kv.pwd with
      | some pwd =>
        match key_from_slice pwd with
        | some k =>
          match secretbox_open val kv.nonce k with
          | some r => .ok r
          | none => .error ⟨.CryptoError, some "cannot validate value being decrypted"⟩
        | none => .error ⟨.CryptoError, some "cannot derive key from password hash"⟩
      | none => .ok val
    match deser_val with
    | .ok dv =>
      match c.deser dv with
      | some value => .ok value
      | none => .error ⟨.KVError, some "cannot deserialize into specified object type"⟩
    | .error e => .error e
  | none => .error ⟨.KVError, some "key not found in storage"⟩

/-- `MicroKV::put` (src/kv.rs lines 222–253): under the write lock, remove
the key when present (`IndexMap::remove`, i.e. swap-remove), serialize the
value, encrypt when a password is set, insert.  The source unwraps
`Key::from_slice`; `none` models that panic. -/
def MicroKV.put {V : Type} (c : Codec V) (kv : MicroKV) (key : List Char) (value : V) :
    Option MicroKV :=
  let m1 := if containsKey key kv.storage then swapRemoveKey key kv.storage else kv.storage
  let ser_val := c.ser value
  match kv.pwd with
  | some pwd =>
    match key_from_slice pwd with
    | some k =>
      some { kv with storage := imInsert key (secretbox_seal ser_val kv.nonce k) m1 }
    | none => none
  | none => some { kv with storage := imInsert key ser_val m1 }

/-- `MicroKV::delete` (src/kv.rs lines 257–267): `IndexMap::remove` under
the write lock with the result discarded; always returns `Ok(())`.  The
model carries the new handle state inside the `Ok`. -/
def MicroKV.delete (kv : MicroKV) (key : List Char) : Except KVError MicroKV :=
  .ok { kv with storage := swapRemoveKey key kv.storage }

/-- `MicroKV::keys` (src/kv.rs lines 316–329): the keys of a clone of the
map, in insertion order. -/
def MicroKV.keys (kv : MicroKV) : Except KVError (List (List Char)) :=
  .ok (kv.storage.map Prod.fst)

/-! ## Persistence (`MicroKV::commit` / `MicroKV::open`) -/

/-- Map-entry encoding, serde order: key then value. -/
def encEntry (e : List Char × Bytes) : Bytes := encStr e.1 ++ encBytes e.2

/-- `IndexMap` serde encoding: length then the entries in insertion order. -/
def encMap (m : KVmap) : Bytes := m.length :: (m.map encEntry).flatten

/-- Decode `n` map entries. -/
def decEntries : Nat → Bytes → Option (KVmap × Bytes)
  | 0, s => some ([], s)
  | n + 1, s =>
    match decStr s with
    | some (k, r1) =>
      match decBytes r1 with
      | some (v, r2) =>
        match decEntries n r2 with
        | some (es, r3) => some ((k, v) :: es, r3)
        | none => none
      | none => none
    | none => none

/-- Decode an `IndexMap`. -/
def decMap (s : Bytes) : Option (KVmap × Bytes) :=
  match s with
  | [] => none
  | n :: r => decEntries n r

theorem decEntries_enc (m : KVmap) (r : Bytes) :
    decEntries m.length ((m.map encEntry).flatten ++ r) = some (m, r) := by
  induction m with
  | nil => simp [decEntries]
  | cons e es ih =>
    have harr : ((e :: es).map encEntry).flatten ++ r
        = encStr e.1 ++ (encBytes e.2 ++ ((es.map encEntry).flatten ++ r)) := by
      simp [encEntry, List.append_assoc]
    simp only [List.length_cons, harr, decEntries, decStr_enc, decBytes_enc, ih]

theorem decMap_enc (m : KVmap) (r : Bytes) : decMap (encMap m ++ r) = some (m, r) := by
  simp only [encMap, List.cons_append, decMap]
  exact decEntries_enc m r

/-- Serialization of the handle's durable fields, in struct declaration
order: `path`, `storage`, `nonce`; the `pwd` field is skipped
(`skip_serializing`). -/
def encHandle (kv : MicroKV) : Bytes :=
  encStr kv.path ++ (encMap kv.storage ++ encBytes kv.nonce)

/-- Model of `bincode::deserialize::<MicroKV>`: fields in declaration order;
the skipped `pwd` field deserializes to `None`; trailing bytes are ignored
(bincode's default for `deserialize`). -/
def decHandle (s : Bytes) : Option MicroKV :=
  match decStr s with
  | some (path, r1) =>
    match decMap r1 with
    | some (m, r2) =>
      match decBytes r2 with
      | some (nonce, _) =>
        some { path := path, storage := m, nonce := nonce, pwd := none }
      | none => none
    | none => none
  | none => none

theorem decHandle_enc (kv : MicroKV) (r : Bytes) :
    decHandle (encHandle kv ++ r)
      = some { path := kv.path, storage := kv.storage, nonce := kv.nonce, pwd := none } := by
  have h3 : decBytes (encBytes kv.nonce ++ r) = some (kv.nonce, r) := decBytes_enc _ r
  simp only [encHandle, decHandle, List.append_assoc, decStr_enc, decMap_enc, h3]

/-- File content after a successful `MicroKV::commit` (src/kv.rs lines
378–394): the file is opened with `write(true).create(true)` and **no
`truncate`**, so the serialization overwrites the head of the previous
content (`old`, `[]` for a fresh file) and any longer tail survives. -/
def MicroKV.commit (kv : MicroKV) (old : Bytes) : Bytes :=
  let ser := encHandle kv
  ser ++ old.drop ser.length

/-- Outcome of `MicroKV::open`: a handle, a typed error, or a panic. -/
inductive OpenOutcome where
  | ok (kv : MicroKV)
  | err (e : ErrorType)
  | panicked
deriving DecidableEq, Repr

/-- `MicroKV::open` (src/kv.rs lines 84–95): read the file at the
deterministic path (`file` is its content, `none` when missing/unreadable,
which surfaces as `FileError` through `From<io::Error>`); then
`bincode::deserialize(&kv_raw).unwrap()` — a parse failure panics. -/
def MicroKV.openDb (file : Option Bytes) : OpenOutcome :=
  match file with
  | none => .err .FileError
  | some bytes =>
    match decHandle bytes with
    | some kv => .ok kv
    | none => .panicked

/-! ## Namespaces (`src/namespace.rs`) -/

/-- `format_key` (src/namespace.rs lines 19–25): the key verbatim when the
namespace is empty, else `"{namespace}@{key}"`. -/
def format_key (ns key : List Char) : List Char :=
  if ns = [] then key else ns ++ '@' :: key

/-- `ExtendedIndexMap::kv_put` (src/namespace.rs lines 210–234): form the
composite key, remove it when present (swap-remove), serialize, encrypt when
the owning handle has a password, insert.  The source unwraps
`Key::from_slice`; `none` models that panic. -/
def kv_put {V : Type} (c : Codec V) (m : KVmap) (pwd : Option Bytes) (nonce : Bytes)
    (ns key : List Char) (value : V) : Option KVmap :=
  let data_key := format_key ns key
  let m1 := if containsKey data_key m then swapRemoveKey data_key m else m
  let ser_val := c.ser value
  match pwd with
  | some p =>
    match key_from_slice p with
    | some k => some (imInsert data_key (secretbox_seal ser_val nonce k) m1)
    | none => none
  | none => some (imInsert data_key ser_val m1)

/-- `ExtendedIndexMap::kv_get` (src/namespace.rs lines 236–284): look the
composite key up; `Ok(None)` when absent; with a password, derive the key
(`CryptoError` on failure) and decrypt (`CryptoError` on failure); then
deserialize (`KVError` on failure). -/
def kv_get {V : Type} (c : Codec V) (m : KVmap) (pwd : Option Bytes) (nonce : Bytes)
    (ns key : List Char) : Except KVError (Option V) :=
  match lookupKV (format_key ns key) m with
  | some val =>
    let deser_val : Except KVError Bytes :=
      match pwd with
      | some p =>
        match key_from_slice p with
        | some k =>
          match secretbox_open val nonce k with
          | some r => .ok r
          | none => .error ⟨.CryptoError, some "cannot validate value being decrypted"⟩
        | none => .error ⟨.CryptoError, some "cannot derive key from password hash"⟩
      | none => .ok val
    match deser_val with
    | .ok dv =>
      match c.deser dv with
      | some value => .ok (some value)
      | none => .error ⟨.KVError, some "cannot deserialize into specified object type"⟩
    | .error e => .error e
  | none => .ok none

/-- `NamespaceMicrokv::get` (src/namespace.rs lines 53–65): clone the map
under the read lock and delegate to `kv_get`. -/
def NamespaceMicrokv.get {V : Type} (c : Codec V) (kv : MicroKV) (ns key : List Char) :
    Except KVError (Option V) :=
  kv_get c kv.storage kv.pwd kv.nonce ns key

/-- `NamespaceMicrokv::get_unwrap` (src/namespace.rs lines 38–49): like
`get`, but an absent key becomes `KVError` "key not found in storage". -/
def NamespaceMicrokv.get_unwrap {V : Type} (c : Codec V) (kv : MicroKV)
    (ns key : List Char) : Except KVError V :=
  match NamespaceMicrokv.get c kv ns key with
  | .ok (some v) => .ok v
  | .ok none => .error ⟨.KVError, some "key not found in storage"⟩
  | .error e => .error e

/-- `NamespaceMicrokv::put` (src/namespace.rs lines 68–84): `kv_put` under
the write lock (the auto-commit file write that may follow is modelled by
`MicroKV.commit`; its lock ordering by the traces below). -/
def NamespaceMicrokv.put {V : Type} (c : Codec V) (kv : MicroKV) (ns key : List Char)
    (value : V) : Option MicroKV :=
  match kv_put c kv.storage kv.pwd kv.nonce ns key value with
  | some m2 => some { kv with storage := m2 }
  | none => none

/-- `NamespaceMicrokv::delete` (src/namespace.rs lines 87–102): swap-remove
the composite key, result discarded; always `Ok(())` (the auto-commit write
is modelled separately).  The model carries the new state inside `Ok`. -/
def NamespaceMicrokv.delete (kv : MicroKV) (ns key : List Char) : Except KVError MicroKV :=
  .ok { kv with storage := swapRemoveKey (format_key ns key) kv.storage }

/-- `NamespaceMicrokv::keys` (src/namespace.rs lines 119–138): keys of a
clone of the map, filtered to those starting with `format_key(namespace, "")`
(everything when the namespace is empty). -/
def NamespaceMicrokv.keys (kv : MicroKV) (ns : List Char) : Except KVError (List (List Char)) :=
  .ok ((kv.storage.map Prod.fst).filter (fun x =>
    if ns = [] then true else (format_key ns []).isPrefixOf x))

/-! ## Lock/commit ordering traces (`src/namespace.rs`)

Each mutating namespace operation is abstracted to its sequence of lock and
commit events, read off the source's control flow: the write guard is
acquired at the top; an early `return` or the end of the function body drops
the guard; `self.microkv.commit()` is the commit I/O. -/

inductive LockEvent where
  | acquireWrite
  | releaseWrite
  | commitIo
deriving DecidableEq, Repr

/-- `NamespaceMicrokv::put` (src/namespace.rs lines 68–84): acquire the
write guard, mutate; without auto-commit, return (guard drops); with
auto-commit, `drop(data)` then `self.microkv.commit()`. -/
def nsPutTrace (auto_commit : Bool) : List LockEvent :=
  [LockEvent.acquireWrite] ++
    (if !auto_commit then [LockEvent.releaseWrite]
     else [LockEvent.releaseWrite, LockEvent.commitIo])

/-- `NamespaceMicrokv::delete` (src/namespace.rs lines 87–102): same shape
as `put`: `drop(data)` precedes the auto-commit. -/
def nsDeleteTrace (auto_commit : Bool) : List LockEvent :=
  [LockEvent.acquireWrite] ++
    (if !auto_commit then [LockEvent.releaseWrite]
     else [LockEvent.releaseWrite, LockEvent.commitIo])

/-- `NamespaceMicrokv::clear` (src/namespace.rs lines 170–198): acquire the
write guard, mutate; without auto-commit, return (guard drops); with
auto-commit, `self.microkv.commit()` is called with the guard still live —
there is no `drop(data)` — and the guard only drops at the end of the scope,
after the commit returns. -/
def nsClearTrace (auto_commit : Bool) : List LockEvent :=
  [LockEvent.acquireWrite] ++
    (if !auto_commit then [LockEvent.releaseWrite]
     else [LockEvent.commitIo, LockEvent.releaseWrite])

/-! ## String helper lemmas (for namespace isolation) -/

theorem isPrefixOf_eq_true_iff (p s : List Char) :
    p.isPrefixOf s = true ↔ ∃ t, s = p ++ t := by
  induction p generalizing s with
  | nil => simp [List.isPrefixOf]
  | cons a p ih =>
    cases s with
    | nil => simp [List.isPrefixOf]
    | cons b s =>
      simp only [List.isPrefixOf, Bool.and_eq_true, beq_iff_eq, ih]
      constructor
      · rintro ⟨rfl, t, rfl⟩
        exact ⟨t, rfl⟩
      · rintro ⟨t, ht⟩
        have h1 : a = b := (List.cons.inj ht).1.symm
        have h2 : s = p ++ t := (List.cons.inj ht).2
        exact ⟨h1, t, h2⟩

theorem format_key_nil (x : List Char) : format_key [] x = x := by
  simp [format_key]

theorem format_key_cons {ns : List Char} (hns : ns ≠ []) (x : List Char) :
    format_key ns x = ns ++ '@' :: x := by
  simp [format_key, hns]

/-- Two delimiter-composed keys agree only on equal namespaces and keys, as
long as neither namespace contains the delimiter. -/
theorem at_append_inj {A B x y : List Char} (hA : '@' ∉ A) (hB : '@' ∉ B)
    (h : A ++ '@' :: x = B ++ '@' :: y) : A = B ∧ x = y := by
  induction A generalizing B with
  | nil =>
    cases B with
    | nil => simpa using h
    | cons b B2 =>
      exfalso
      have hb : '@' = b := (List.cons.inj (by simpa using h)).1
      exact hB (by simp [← hb])
  | cons a A2 ih =>
    cases B with
    | nil =>
      exfalso
      have ha : a = '@' := (List.cons.inj (by simpa using h)).1
      exact hA (by simp [ha])
    | cons b B2 =>
      have hab : a = b := (List.cons.inj (by simpa using h)).1
      have htail : A2 ++ '@' :: x = B2 ++ '@' :: y := (List.cons.inj (by simpa using h)).2
      have hA2 : '@' ∉ A2 := fun hm => hA (List.mem_cons_of_mem _ hm)
      have hB2 : '@' ∉ B2 := fun hm => hB (List.mem_cons_of_mem _ hm)
      obtain ⟨he, hx⟩ := ih hA2 hB2 htail
      exact ⟨by rw [hab, he], hx⟩

theorem ne_format_key_of_no_at {A x z : List Char} (hA : A ≠ []) (hz : '@' ∉ z) :
    z ≠ format_key A x := by
  rw [format_key_cons hA]
  intro h
  apply hz
  rw [h]
  exact List.mem_append.mpr (Or.inr (List.mem_cons_self _ _))

theorem format_key_ne_of_ns_ne {A B x y : List Char} (hA : A ≠ []) (hB : B ≠ [])
    (hAB : A ≠ B) (hAat : '@' ∉ A) (hBat : '@' ∉ B) :
    format_key B y ≠ format_key A x := by
  rw [format_key_cons hA, format_key_cons hB]
  intro h
  exact hAB ((at_append_inj hBat hAat h).1.symm)

/-! ## Helper lemmas about the store operations -/

theorem kv_put_lookup_ne {V : Type} (c : Codec V) {m m2 : KVmap} {pwd : Option Bytes}
    {nonce : Bytes} {ns key z : List Char} {v : V}
    (hN : (m.map Prod.fst).Nodup) (hz : z ≠ format_key ns key)
    (hput : kv_put c m pwd nonce ns key v = some m2) :
    lookupKV z m2 = lookupKV z m := by
  have hm1 : lookupKV z (if containsKey (format_key ns key) m
      then swapRemoveKey (format_key ns key) m else m) = lookupKV z m := by
    split
    · exact lookupKV_swapRemoveKey_ne hN hz
    · rfl
  unfold kv_put at hput
  cases hpwd : pwd with
  | none =>
    simp only [hpwd] at hput
    injection hput with hm2
    rw [← hm2, lookupKV_imInsert_ne hz, hm1]
  | some p =>
    simp only [hpwd] at hput
    cases hk : key_from_slice p with
    | none => simp [hk] at hput
    | some k0 =>
      simp only [hk] at hput
      injection hput with hm2
      rw [← hm2, lookupKV_imInsert_ne hz, hm1]

theorem put_preserves {V : Type} (c : Codec V) {kv kv2 : MicroKV} {key : List Char} {v : V}
    (h : MicroKV.put c kv key v = some kv2) :
    kv2.path = kv.path ∧ kv2.nonce = kv.nonce ∧ kv2.pwd = kv.pwd := by
  unfold MicroKV.put at h
  cases hp : kv.pwd with
  | none =>
    simp only [hp] at h
    injection h with h2
    rw [← h2]
    exact ⟨rfl, rfl, rfl⟩
  | some p =>
    simp only [hp] at h
    cases hk : key_from_slice p with
    | none => simp [hk] at h
    | some k0 =>
      simp only [hk] at h
      injection h with h2
      rw [← h2]
      exact ⟨rfl, rfl, rfl⟩

/-- `put` in a loop, for the persistence round-trip scenario. -/
def MicroKV.putAll {V : Type} (c : Codec V) : MicroKV → List (List Char × V) → Option MicroKV
  | kv, [] => some kv
  | kv, e :: es =>
    match MicroKV.put c kv e.1 e.2 with
    | some kv2 => MicroKV.putAll c kv2 es
    | none => none

theorem put_isSome {V : Type} (c : Codec V) (kv : MicroKV) (key : List Char) (v : V)
    (hpwd : kv.pwd = none ∨ ∃ p, kv.pwd = some p ∧ p.length = 32) :
    ∃ kv2, MicroKV.put c kv key v = some kv2 := by
  rcases hpwd with hp | ⟨p, hp, h32⟩
  · exact ⟨{ kv with storage := imInsert key (c.ser v) (if containsKey key kv.storage then swapRemoveKey key kv.storage else kv.storage) }, by simp [MicroKV.put, hp]⟩
  · exact ⟨{ kv with storage := imInsert key (secretbox_seal (c.ser v) kv.nonce p) (if containsKey key kv.storage then swapRemoveKey key kv.storage else kv.storage) }, by simp [MicroKV.put, hp, key_from_slice, h32]⟩

theorem putAll_ok {V : Type} (c : Codec V) (entries : List (List Char × V)) :
    ∀ kv : MicroKV, (kv.pwd = none ∨ ∃ p, kv.pwd = some p ∧ p.length = 32) →
      ∃ kv2, MicroKV.putAll c kv entries = some kv2 ∧ kv2.path = kv.path
        ∧ kv2.nonce = kv.nonce ∧ kv2.pwd = kv.pwd := by
  induction entries with
  | nil => exact fun kv _ => ⟨kv, rfl, rfl, rfl, rfl⟩
  | cons e es ih =>
    intro kv hpwd
    obtain ⟨kv1, h1⟩ := put_isSome c kv e.1 e.2 hpwd
    obtain ⟨hpath, hnonce, hpwd1⟩ := put_preserves c h1
    obtain ⟨kv2, h2, h3, h4, h5⟩ := ih kv1 (by rw [hpwd1]; exact hpwd)
    refine ⟨kv2, ?_, by rw [h3, hpath], by rw [h4, hnonce], by rw [h5, hpwd1]⟩
    simp [MicroKV.putAll, h1, h2]

/-! # Claims -/

/-- Identity codec on raw byte values, used to instantiate witnesses. -/
def idCodec : Codec Bytes := ⟨fun b => b, fun b => some b⟩

/-- **C1**: for every key `k` and serializable value `v` (serializability is
the bincode round-trip hypothesis `hrt`), `put(k, v)` followed by `get(k)` on
the same handle returns a value equal to `v`, both when no password is
configured (value stored and returned as-is) and when a 32-byte hashed
password is configured (value encrypted on put and decrypted on get with the
same password and the store's nonce). -/
theorem c1_put_get_roundtrip {V : Type} (c : Codec V) (kv : MicroKV)
    (key : List Char) (v : V) (hrt : c.deser (c.ser v) = some v)
    (hpwd : kv.pwd = none ∨ ∃ p, kv.pwd = some p ∧ p.length = 32) :
    (MicroKV.put c kv key v).isSome = true
    ∧ ∀ kv2, MicroKV.put c kv key v = some kv2 → MicroKV.get c kv2 key = Except.ok v := by
  constructor
  · obtain ⟨kv2, h⟩ := put_isSome c kv key v hpwd
    simp [h]
  · intro kv2 hput
    unfold MicroKV.put at hput
    rcases hpwd with hp | ⟨p, hp, h32⟩
    · simp only [hp] at hput
      injection hput with h2
      rw [← h2]
      simp [MicroKV.get, lookupKV_imInsert_self, hp, hrt]
    · have hk : key_from_slice p = some p := by simp [key_from_slice, h32]
      simp only [hp, hk] at hput
      injection hput with h2
      rw [← h2]
      have hopen : secretbox_open (secretbox_seal (c.ser v) kv.nonce p) kv.nonce p
          = some (c.ser v) := by
        rw [secretbox_open_seal]
        simp
      simp [MicroKV.get, lookupKV_imInsert_self, hp, hk, hopen, hrt]

/-- Witness for C1 at a concrete encrypted store. -/
theorem c1_witness :
    MicroKV.put idCodec
        { path := [], storage := [], nonce := [3], pwd := some (List.replicate 32 2) }
        ['k'] [7]
      = some { path := [], storage := [(['k'], secretbox_seal [7] [3] (List.replicate 32 2))],
               nonce := [3], pwd := some (List.replicate 32 2) }
    ∧ MicroKV.get idCodec
        { path := [], storage := [(['k'], secretbox_seal [7] [3] (List.replicate 32 2))],
          nonce := [3], pwd := some (List.replicate 32 2) }
        ['k'] = Except.ok [7] :=
  ⟨by decide,
    (c1_put_get_roundtrip idCodec
      { path := [], storage := [], nonce := [3], pwd := some (List.replicate 32 2) }
      ['k'] [7] rfl
      (Or.inr ⟨List.replicate 32 2, rfl, by decide⟩)).2 _ (by decide)⟩

/-- **C2**: for every store name and list of put entries, creating a handle
with `new(name)` (plus a 32-byte hashed password), performing the puts,
calling `commit()`, and opening the resulting file bytes with `open` yields
back—once the same password is re-attached—a store with identical storage
(key set and values) and identical path, and recovers the exact nonce the
committing handle generated. -/
theorem c2_persistence_roundtrip {V : Type} (c : Codec V) (homeDir dbname : List Char)
    (nonce p : Bytes) (h32 : p.length = 32) (entries : List (List Char × V)) (old : Bytes) :
    (MicroKV.putAll c ((MicroKV.new homeDir dbname nonce).with_pwd_hash p) entries).isSome = true
    ∧ ∀ kv2, MicroKV.putAll c ((MicroKV.new homeDir dbname nonce).with_pwd_hash p) entries
          = some kv2 →
        MicroKV.openDb (some (MicroKV.commit kv2 old))
          = OpenOutcome.ok { path := kv2.path, storage := kv2.storage, nonce := kv2.nonce,
                             pwd := none }
        ∧ ({ path := kv2.path, storage := kv2.storage, nonce := kv2.nonce,
             pwd := none } : MicroKV).with_pwd_hash p = { kv2 with pwd := some p }
        ∧ kv2.nonce = nonce := by
  constructor
  · obtain ⟨kv2, h, _⟩ :=
      putAll_ok c entries ((MicroKV.new homeDir dbname nonce).with_pwd_hash p)
        (Or.inr ⟨p, rfl, h32⟩)
    simp [h]
  · intro kv2 h
    refine ⟨?_, ?_, ?_⟩
    · simp [MicroKV.openDb, MicroKV.commit, decHandle_enc]
    · rfl
    · obtain ⟨kv2b, hb, _, hnonce, _⟩ :=
        putAll_ok c entries ((MicroKV.new homeDir dbname nonce).with_pwd_hash p)
          (Or.inr ⟨p, rfl, h32⟩)
      rw [h] at hb
      injection hb with he
      rw [he]
      exact hnonce

/-- Witness for C2 at a concrete encrypted store with one entry. -/
theorem c2_witness :
    MicroKV.putAll idCodec
        ((MicroKV.new ['h'] ['d'] [1]).with_pwd_hash (List.replicate 32 0)) [(['k'], [9])]
      = some { path := MicroKV.get_db_path ['h'] ['d'],
               storage := [(['k'], secretbox_seal [9] [1] (List.replicate 32 0))],
               nonce := [1], pwd := some (List.replicate 32 0) }
    ∧ (MicroKV.openDb (some (MicroKV.commit
          { path := MicroKV.get_db_path ['h'] ['d'],
            storage := [(['k'], secretbox_seal [9] [1] (List.replicate 32 0))],
            nonce := [1], pwd := some (List.replicate 32 0) } []))
        = OpenOutcome.ok
            { path := MicroKV.get_db_path ['h'] ['d'],
              storage := [(['k'], secretbox_seal [9] [1] (List.replicate 32 0))],
              nonce := [1], pwd := none }
      ∧ ({ path := MicroKV.get_db_path ['h'] ['d'],
           storage := [(['k'], secretbox_seal [9] [1] (List.replicate 32 0))],
           nonce := [1], pwd := none } : MicroKV).with_pwd_hash (List.replicate 32 0)
          = { path := MicroKV.get_db_path ['h'] ['d'],
              storage := [(['k'], secretbox_seal [9] [1] (List.replicate 32 0))],
              nonce := [1], pwd := some (List.replicate 32 0) }
      ∧ ({ path := MicroKV.get_db_path ['h'] ['d'],
           storage := [(['k'], secretbox_seal [9] [1] (List.replicate 32 0))],
           nonce := [1], pwd := some (List.replicate 32 0) } : MicroKV).nonce = [1]) :=
  ⟨by decide,
    (c2_persistence_roundtrip idCodec ['h'] ['d'] [1] (List.replicate 32 0) (by decide)
      [(['k'], [9])] []).2 _ (by decide)⟩

/-- **C3**: on a handle with a 32-byte password, (a) a stored blob that is
not a valid sealed box under the store's derived key and nonce (tampered or
altered ciphertext bytes) makes `get` return the `CryptoError` of the
decryption check; (b) in particular, reading a value sealed under password
`p` using a different 32-byte password `q` (derived key mismatch) yields that
`CryptoError`; (c) whenever `get` succeeds, the stored blob is exactly the
sealed box of the returned value's serialization under the store's key and
nonce — never incorrect or partially-decrypted plaintext. -/
theorem c3_wrong_password_or_tamper {V : Type} (c : Codec V) (kv : MicroKV) (p : Bytes)
    (x : List Char) (hp : kv.pwd = some p) (h32 : p.length = 32) :
    (∀ cb, lookupKV x kv.storage = some cb →
      (∀ pl, cb ≠ secretbox_seal pl kv.nonce p) →
      MicroKV.get c kv x
        = Except.error ⟨ErrorType.CryptoError, some "cannot validate value being decrypted"⟩)
    ∧ (∀ q pl, q.length = 32 → q ≠ p →
        lookupKV x kv.storage = some (secretbox_seal pl kv.nonce p) →
        MicroKV.get c { kv with pwd := some q } x
          = Except.error ⟨ErrorType.CryptoError, some "cannot validate value being decrypted"⟩)
    ∧ (∀ v, MicroKV.get c kv x = Except.ok v →
        ∃ pl, lookupKV x kv.storage = some (secretbox_seal pl kv.nonce p)
          ∧ c.deser pl = some v) := by
  have hk : key_from_slice p = some p := by simp [key_from_slice, h32]
  refine ⟨?_, ?_, ?_⟩
  · intro cb hcb hne
    have hopen : secretbox_open cb kv.nonce p = none := by
      cases ho : secretbox_open cb kv.nonce p with
      | none => rfl
      | some r => exact absurd (secretbox_open_sound ho) (hne r)
    simp [MicroKV.get, hcb, hp, hk, hopen]
  · intro q pl h32q hqp hcb
    have hkq : key_from_slice q = some q := by simp [key_from_slice, h32q]
    have hcond : ¬ (p = q ∧ kv.nonce = kv.nonce) := fun hcon => hqp hcon.1.symm
    have hopen : secretbox_open (secretbox_seal pl kv.nonce p) kv.nonce q = none := by
      rw [secretbox_open_seal, if_neg hcond]
    simp [MicroKV.get, hcb, hkq, hopen]
  · intro v hv
    cases hl : lookupKV x kv.storage with
    | none => simp [MicroKV.get, hl] at hv
    | some val =>
      simp only [MicroKV.get, hl, hp, hk] at hv
      cases ho : secretbox_open val kv.nonce p with
      | none => simp [ho] at hv
      | some r =>
        simp only [ho] at hv
        cases hd : c.deser r with
        | none => simp [hd] at hv
        | some v0 =>
          simp only [hd] at hv
          have hv0 : v0 = v := by simpa using hv
          refine ⟨r, ?_, ?_⟩
          · exact congrArg some (secretbox_open_sound ho)
          · rw [hd, hv0]

/-- Witness for C3: wrong-password read on a concrete sealed entry. -/
theorem c3_witness :
    MicroKV.get idCodec
      { path := [], storage := [(['k'], secretbox_seal [5] [9] (List.replicate 32 0))],
        nonce := [9], pwd := some (List.replicate 32 1) }
      ['k']
      = Except.error ⟨ErrorType.CryptoError, some "cannot validate value being decrypted"⟩ :=
  (c3_wrong_password_or_tamper idCodec
      { path := [], storage := [(['k'], secretbox_seal [5] [9] (List.replicate 32 0))],
        nonce := [9], pwd := some (List.replicate 32 0) }
      (List.replicate 32 0) ['k'] rfl (by decide)).2.1
    (List.replicate 32 1) [5] (by decide) (by decide) (by decide)

/-- **C4 (counterexample)**: re-putting key `"b"` in the four-entry map
`a, b, c, d` yields key order `a, d, c, b` — the previously last key `d` was
swapped into `b`'s slot — and not the claimed order `a, c, d, b` (all other
keys keeping their relative insertion order, `b` moved to the end). -/
theorem c4_counterexample :
    (MicroKV.put idCodec
        { path := [], storage := [(['a'], [0]), (['b'], [0]), (['c'], [0]), (['d'], [0])],
          nonce := [], pwd := none } ['b'] [7]).map (fun kv2 => kv2.storage.map Prod.fst)
      = some [['a'], ['d'], ['c'], ['b']]
    ∧ (MicroKV.put idCodec
        { path := [], storage := [(['a'], [0]), (['b'], [0]), (['c'], [0]), (['d'], [0])],
          nonce := [], pwd := none } ['b'] [7]).map (fun kv2 => kv2.storage.map Prod.fst)
      ≠ some [['a'], ['c'], ['d'], ['b']] :=
  ⟨by decide, by decide⟩

/-- **C4 (amended)**: for a map with unique keys and a key `k` present at
index `i`, `put(k, v')` removes `k` by `IndexMap::remove`, which is
swap-remove — the previously last key moves into `k`'s old slot — and then
appends `k` at the end: the new key sequence is
`((oldKeys.set i lastKey).dropLast) ++ [k]`.  The relative order of the
other keys is preserved only when `k` occupies one of the last two slots. -/
theorem c4_re_put_key_order {V : Type} (c : Codec V) (kv : MicroKV) (k : List Char)
    (v : V) (i : Nat) (last : List Char × Bytes)
    (hN : (kv.storage.map Prod.fst).Nodup)
    (hi : findIdxKey k kv.storage = some i) (hl : kv.storage.getLast? = some last)
    (hpwd : kv.pwd = none ∨ ∃ p, kv.pwd = some p ∧ p.length = 32) (kv2 : MicroKV)
    (hput : MicroKV.put c kv k v = some kv2) :
    kv2.storage.map Prod.fst
      = (((kv.storage.map Prod.fst).set i last.1).dropLast) ++ [k] := by
  have hcont : containsKey k kv.storage = true := by simp [containsKey, hi]
  have hnone : findIdxKey k (swapRemoveKey k kv.storage) = none :=
    findIdxKey_eq_none_of_not_mem (not_mem_keys_swapRemoveKey hN)
  have hkeys : ∀ b : Bytes,
      (imInsert k b (if containsKey k kv.storage = true
        then swapRemoveKey k kv.storage else kv.storage)).map Prod.fst
      = (((kv.storage.map Prod.fst).set i last.1).dropLast) ++ [k] := by
    intro b
    rw [if_pos hcont, keys_imInsert_append hnone, map_fst_swapRemoveKey hi hl]
  unfold MicroKV.put at hput
  rcases hpwd with hp | ⟨p, hp, h32⟩
  · simp only [hp] at hput
    injection hput with h2
    rw [← h2]
    exact hkeys _
  · have hk : key_from_slice p = some p := by simp [key_from_slice, h32]
    simp only [hp, hk] at hput
    injection hput with h2
    rw [← h2]
    exact hkeys _

/-- Witness for the amended C4 at the concrete four-entry map. -/
theorem c4_witness :
    MicroKV.put idCodec
        { path := [], storage := [(['a'], [0]), (['b'], [0]), (['c'], [0]), (['d'], [0])],
          nonce := [], pwd := none } ['b'] [7]
      = some { path := [],
               storage := [(['a'], [0]), (['d'], [0]), (['c'], [0]), (['b'], [7])],
               nonce := [], pwd := none }
    ∧ ({ path := [],
         storage := [(['a'], [0]), (['d'], [0]), (['c'], [0]), (['b'], [7])],
         nonce := [], pwd := none } : MicroKV).storage.map Prod.fst
      = ((([['a'], ['b'], ['c'], ['d']].set 1 ['d']).dropLast) ++ [['b']]) :=
  ⟨by decide,
    c4_re_put_key_order idCodec
      { path := [], storage := [(['a'], [0]), (['b'], [0]), (['c'], [0]), (['d'], [0])],
        nonce := [], pwd := none } ['b'] [7] 1 (['d'], [0])
      (by decide) (by decide) (by decide) (Or.inl rfl)
      { path := [],
        storage := [(['a'], [0]), (['d'], [0]), (['c'], [0]), (['b'], [7])],
        nonce := [], pwd := none }
      (by decide)⟩

/-- **C5** (code-bug evidence): `open` on a missing or unreadable file
returns `FileError`; on present bytes that do not parse (here: the empty
byte string) the code panics via `bincode::deserialize(&kv_raw).unwrap()`
instead of returning a typed serialization error — indeed `ErrorType` has no
serialization variant at all. -/
theorem c5_open_missing_vs_unparsable :
    MicroKV.openDb none = OpenOutcome.err ErrorType.FileError
    ∧ MicroKV.openDb (some []) = OpenOutcome.panicked :=
  ⟨rfl, rfl⟩

/-- **C6** (code-bug evidence): with auto-commit enabled, `put` and `delete`
drop the write guard (`drop(data)`) before the commit I/O, but `clear`
performs the commit I/O while the write guard is still held — the guard is
only released after `commit` returns, at the end of the function scope. -/
theorem c6_clear_commit_ordering :
    nsPutTrace true = [LockEvent.acquireWrite, LockEvent.releaseWrite, LockEvent.commitIo]
    ∧ nsDeleteTrace true
        = [LockEvent.acquireWrite, LockEvent.releaseWrite, LockEvent.commitIo]
    ∧ nsClearTrace true
        = [LockEvent.acquireWrite, LockEvent.commitIo, LockEvent.releaseWrite] :=
  ⟨rfl, rfl, rfl⟩

/-- **C7**: with the delimiter `'@'` absent from all namespaces and keys, a
value put under namespace `A` with key `x` changes neither the default
(empty) namespace's `get(x)` nor namespace `B`'s `get(x)` (`A ≠ B`), and
`namespace(A).keys()` never contains a composite key belonging to a
different namespace (including the default one). -/
theorem c7_namespace_isolation {V : Type} (c : Codec V) (kv kv2 : MicroKV)
    (A B x : List Char) (hA : A ≠ []) (hB : B ≠ []) (hAB : A ≠ B)
    (hAat : '@' ∉ A) (hBat : '@' ∉ B) (hxat : '@' ∉ x)
    (hN : (kv.storage.map Prod.fst).Nodup) (v : V)
    (hput : NamespaceMicrokv.put c kv A x v = some kv2) :
    NamespaceMicrokv.get c kv2 [] x = NamespaceMicrokv.get (V := V) c kv [] x
    ∧ NamespaceMicrokv.get c kv2 B x = NamespaceMicrokv.get (V := V) c kv B x
    ∧ ∀ ks ns2 y, NamespaceMicrokv.keys kv2 A = Except.ok ks →
        ns2 ≠ A → '@' ∉ ns2 → '@' ∉ y → format_key ns2 y ∉ ks := by
  unfold NamespaceMicrokv.put at hput
  cases hkvput : kv_put c kv.storage kv.pwd kv.nonce A x v with
  | none => rw [hkvput] at hput; exact absurd hput (by simp)
  | some m2 =>
    rw [hkvput] at hput
    injection hput with h2
    rw [← h2]
    have hlook : ∀ z, z ≠ format_key A x → lookupKV z m2 = lookupKV z kv.storage :=
      fun z hz => kv_put_lookup_ne c hN hz hkvput
    refine ⟨?_, ?_, ?_⟩
    · have e1 : lookupKV (format_key [] x) m2 = lookupKV (format_key [] x) kv.storage := by
        refine hlook _ ?_
        rw [format_key_nil]
        exact ne_format_key_of_no_at hA hxat
      unfold NamespaceMicrokv.get kv_get
      rw [e1]
    · have e2 : lookupKV (format_key B x) m2 = lookupKV (format_key B x) kv.storage :=
        hlook _ (format_key_ne_of_ns_ne hA hB hAB hAat hBat)
      unfold NamespaceMicrokv.get kv_get
      rw [e2]
    · intro ks ns2 y hks hns2 hat2 hyat
      unfold NamespaceMicrokv.keys at hks
      injection hks with hks2
      rw [← hks2]
      intro hmem
      have hpred := (List.mem_filter.mp hmem).2
      rw [if_neg hA] at hpred
      obtain ⟨t, ht⟩ := (isPrefixOf_eq_true_iff _ _).mp hpred
      have ht2 : format_key ns2 y = A ++ '@' :: t := by
        rw [ht, format_key_cons hA]
        simp
      by_cases hns2nil : ns2 = []
      · rw [hns2nil, format_key_nil] at ht2
        exact hyat (ht2 ▸ (List.mem_append.mpr (Or.inr (List.mem_cons_self _ _))))
      · rw [format_key_cons hns2nil] at ht2
        exact hns2 (at_append_inj hat2 hAat ht2).1

/-- Witness for C7 at a concrete store: the value put under `"A"` is
invisible to the default namespace and to `"B"`, and `"B@x"` is not among
namespace `"A"`'s keys. -/
theorem c7_witness :
    NamespaceMicrokv.get idCodec
        { path := [], storage := [(['A', '@', 'x'], [7])], nonce := [], pwd := none } [] ['x']
      = NamespaceMicrokv.get idCodec
        { path := [], storage := [], nonce := [], pwd := none } [] ['x']
    ∧ NamespaceMicrokv.get idCodec
        { path := [], storage := [(['A', '@', 'x'], [7])], nonce := [], pwd := none } ['B'] ['x']
      = NamespaceMicrokv.get idCodec
        { path := [], storage := [], nonce := [], pwd := none } ['B'] ['x']
    ∧ format_key ['B'] ['x']
        ∉ [['A', '@', 'x']].filter (fun s =>
            if (['A'] : List Char) = [] then true else (format_key ['A'] []).isPrefixOf s) := by
  have h := c7_namespace_isolation idCodec
    { path := [], storage := [], nonce := [], pwd := none }
    { path := [], storage := [(['A', '@', 'x'], [7])], nonce := [], pwd := none }
    ['A'] ['B'] ['x'] (by decide) (by decide) (by decide) (by decide) (by decide) (by decide)
    (by decide) [7] (by decide)
  exact ⟨h.1, h.2.1, h.2.2 _ ['B'] ['x'] rfl (by decide) (by decide) (by decide)⟩

/-- **C8 (counterexample)**: committing over a prior file that was one byte
longer than the new serialization leaves that stale trailing byte in place —
the file does not contain exactly the serialization and nothing else,
because `commit` opens the file without `truncate`. -/
theorem c8_counterexample :
    MicroKV.commit { path := ['a'], storage := [], nonce := [5], pwd := none }
        (encHandle { path := ['a'], storage := [], nonce := [5], pwd := none } ++ [7])
      = encHandle { path := ['a'], storage := [], nonce := [5], pwd := none } ++ [7]
    ∧ MicroKV.commit { path := ['a'], storage := [], nonce := [5], pwd := none }
        (encHandle { path := ['a'], storage := [], nonce := [5], pwd := none } ++ [7])
      ≠ encHandle { path := ['a'], storage := [], nonce := [5], pwd := none } :=
  ⟨by decide, by decide⟩

/-- **C8 (amended)**: after a successful `commit()` the file *begins with*
exactly the serialization of the durable fields (path, map, nonce); the
serialization contains no bytes of the password secret (it is independent of
the `pwd` field); any bytes of a longer prior file beyond that head remain,
because the file is opened without truncation.  (Separately, `commit`
creates a `.microkv` directory relative to the current working directory,
not the parent directory of the handle's path.) -/
theorem c8_commit_contents (kv : MicroKV) (old : Bytes) (p2 : Option Bytes) :
    MicroKV.commit kv old = encHandle kv ++ old.drop (encHandle kv).length
    ∧ (MicroKV.commit kv old).take (encHandle kv).length = encHandle kv
    ∧ encHandle { kv with pwd := p2 } = encHandle kv := by
  refine ⟨rfl, ?_, rfl⟩
  simp [MicroKV.commit, List.take_left]

/-- **C9**: deleting an absent key succeeds — no key-not-found error — and
leaves the handle (in particular the map) unchanged, both through
`MicroKV::delete` and through a namespace view's `delete`; the `Ok(())`
result carries no indication of whether the key was present. -/
theorem c9_delete_absent_ok (kv : MicroKV) (k ns key : List Char)
    (h1 : k ∉ kv.storage.map Prod.fst)
    (h2 : format_key ns key ∉ kv.storage.map Prod.fst) :
    MicroKV.delete kv k = Except.ok kv
    ∧ NamespaceMicrokv.delete kv ns key = Except.ok kv := by
  constructor
  · unfold MicroKV.delete
    rw [swapRemoveKey_of_none (findIdxKey_eq_none_of_not_mem h1)]
  · unfold NamespaceMicrokv.delete
    rw [swapRemoveKey_of_none (findIdxKey_eq_none_of_not_mem h2)]

/-- Witness for C9 on a concrete one-entry store and absent keys. -/
theorem c9_witness :
    MicroKV.delete { path := [], storage := [(['a'], [1])], nonce := [], pwd := none } ['z']
      = Except.ok { path := [], storage := [(['a'], [1])], nonce := [], pwd := none }
    ∧ NamespaceMicrokv.delete
        { path := [], storage := [(['a'], [1])], nonce := [], pwd := none } ['n'] ['z']
      = Except.ok { path := [], storage := [(['a'], [1])], nonce := [], pwd := none } :=
  c9_delete_absent_ok
    { path := [], storage := [(['a'], [1])], nonce := [], pwd := none }
    ['z'] ['n'] ['z'] (by decide) (by decide)

/-- **C10**: for a key absent from the store, `NamespaceMicrokv::get`
returns `Ok(None)` rather than an error, while `NamespaceMicrokv::get_unwrap`
and `MicroKV::get` return the key-not-found error of kind `KVError`. -/
theorem c10_absent_key_semantics {V : Type} (c : Codec V) (kv : MicroKV)
    (ns key k2 : List Char)
    (h1 : lookupKV (format_key ns key) kv.storage = none)
    (h2 : lookupKV k2 kv.storage = none) :
    NamespaceMicrokv.get c kv ns key = Except.ok none
    ∧ NamespaceMicrokv.get_unwrap c kv ns key
        = Except.error ⟨ErrorType.KVError, some "key not found in storage"⟩
    ∧ MicroKV.get c kv k2
        = Except.error ⟨ErrorType.KVError, some "key not found in storage"⟩ := by
  have hget : NamespaceMicrokv.get c kv ns key = Except.ok none := by
    unfold NamespaceMicrokv.get kv_get
    rw [h1]
  refine ⟨hget, ?_, ?_⟩
  · unfold NamespaceMicrokv.get_unwrap
    rw [hget]
  · unfold MicroKV.get
    rw [h2]

/-- Witness for C10 on a concrete empty store. -/
theorem c10_witness :
    NamespaceMicrokv.get idCodec { path := [], storage := [], nonce := [], pwd := none }
        ['n'] ['k'] = Except.ok none
    ∧ NamespaceMicrokv.get_unwrap idCodec
        { path := [], storage := [], nonce := [], pwd := none } ['n'] ['k']
      = Except.error ⟨ErrorType.KVError, some "key not found in storage"⟩
    ∧ MicroKV.get idCodec { path := [], storage := [], nonce := [], pwd := none } ['k']
      = Except.error ⟨ErrorType.KVError, some "key not found in storage"⟩ :=
  c10_absent_key_semantics idCodec { path := [], storage := [], nonce := [], pwd := none }
    ['n'] ['k'] ['k'] (by decide) (by decide)
